import Mathlib

/-!
Verification of the `RegionWorker` scheduler from
`src/components/Progress.vue` of bluematador/realtime-aws-cost-inventory.

The TypeScript class is shallowly embedded as a state machine: the worker's
private fields become a `WorkerState` record, and every way control can enter
the worker (an `enqueue` call, `start`, `stop`, `resetProgress`, the pacer
timer firing, a popped task's promise settling, wall-clock time passing)
becomes an `Event` interpreted by `stepFn`.  Machine time is a ghost `Nat`
clock: `window.setTimeout(f, delay)` is modelled by storing `now + delay` as
the earliest instant at which the timer may fire, and the fire event is
enabled only at or after that instant.

The pagination helpers (`enqueuePagedRequest` / `handlePagedResponse`) are
embedded separately as a recursive function over the sequence of page-fetch
results the remote source yields, and the response callback of
`enqueueRequest` as a pure function of the staleness check.
-/

namespace RegionWorker

/-- A queued work item: its priority and an arrival sequence number standing
for the identity of the `fn` closure (`QueueItem` in the source). -/
structure QueueItem where
  priority : Nat
  seq : Nat
deriving DecidableEq, Repr

/-- A popped, currently executing task: the item together with the cancel
token captured at pop time (`const cancel = this.cancel` in `processQueue`). -/
structure InFlight where
  item : QueueItem
  token : Nat
deriving DecidableEq, Repr

/-- The private state of a `RegionWorker`, plus ghost fields: `now` (clock),
`inFlight` (tasks whose action promise is pending), `nextSeq` (arrival
counter), `fillCalls` (number of `fillQueue` invocations) and `lastAdmit`
(instant of the most recent pop-and-start). -/
structure WorkerState where
  queue : List QueueItem
  queueFilled : Bool
  started : Bool
  processing : Bool
  timeout : Option Nat
  cancel : Nat
  progressDone : Nat
  progressTotal : Nat
  progressErrors : Nat
  inFlight : List InFlight
  now : Nat
  nextSeq : Nat
  fillCalls : Nat
  lastAdmit : Option Nat
deriving DecidableEq, Repr

/-- The freshly constructed worker: empty queue, everything zero/false. -/
def initW : WorkerState :=
  { queue := [], queueFilled := false, started := false, processing := false
    timeout := none, cancel := 0, progressDone := 0, progressTotal := 0
    progressErrors := 0, inFlight := [], now := 0, nextSeq := 0
    fillCalls := 0, lastAdmit := none }

/-- Modelled from the spec: `PriorityQueue.pop` (the file
`src/datastructures/priority-queue.ts` is not in the repository snapshot;
only its import and call sites are).  Per the spec, `pop()` returns the item
with the numerically lowest priority value, ties broken by arrival order,
wrapped in an optional that is empty on an empty queue. -/
def popMin : List QueueItem → Option (QueueItem × List QueueItem)
  | [] => none
  | x :: xs =>
    match popMin xs with
    | none => some (x, [])
    | some (y, ys) =>
      if x.priority ≤ y.priority then some (x, xs) else some (y, x :: ys)

/-- Remove the first occurrence of an element from a list (used to retire a
settled task from the ghost `inFlight` multiset). -/
def removeOne : List InFlight → InFlight → List InFlight
  | [], _ => []
  | x :: xs, a => if x = a then xs else x :: removeOne xs a

/-- `RegionWorker.ensureTimeout`: arm the single-shot pacer timer if it is
not already armed; the armed value records the earliest firing instant
`now + workDelay`. -/
def ensureTimeout (d : Nat) (s : WorkerState) : WorkerState :=
  match s.timeout with
  | some _ => s
  | none => { s with timeout := some (s.now + d) }

/-- `RegionWorker.discardTimeout`: clear the pacer timer if armed. -/
def discardTimeout (s : WorkerState) : WorkerState :=
  { s with timeout := none }

/-- The mutation half of `RegionWorker.enqueue`: increment `_progressTotal`
and push the item. -/
def pushItem (p : Nat) (s : WorkerState) : WorkerState :=
  { s with progressTotal := s.progressTotal + 1
           queue := s.queue ++ [⟨p, s.nextSeq⟩]
           nextSeq := s.nextSeq + 1 }

/-- `RegionWorker.enqueue`: increment `_progressTotal`, push the item, and
if started, ensure the pacer is armed. -/
def enqueueW (d : Nat) (p : Nat) (s : WorkerState) : WorkerState :=
  if (pushItem p s).started then ensureTimeout d (pushItem p s)
  else pushItem p s

/-- A `fillQueue` collaborator body: per the spec contract it calls
`enqueue` zero or more times; it is modelled as the list of priorities it
enqueues with. -/
def enqueueAll (d : Nat) (ps : List Nat) (s : WorkerState) : WorkerState :=
  ps.foldl (fun s p => enqueueW d p s) s

/-- The `queueFilled`-guarded one-time invocation of `fillQueue` inside
`RegionWorker.start`. -/
def seedQueue (d : Nat) (fill : List Nat) (s : WorkerState) : WorkerState :=
  if s.queueFilled then s
  else enqueueAll d fill
    { s with queueFilled := true, fillCalls := s.fillCalls + 1 }

/-- `RegionWorker.start`: no-op when already started; otherwise set
`_started`, ensure the pacer, and on the first call since construction or
the last reset (guarded by `queueFilled`) invoke `fillQueue`. -/
def startW (d : Nat) (fill : List Nat) (s : WorkerState) : WorkerState :=
  if s.started then s
  else seedQueue d fill (ensureTimeout d { s with started := true })

/-- `RegionWorker.stop`: no-op when already stopped; otherwise clear
`_started` and discard the pacer timer. -/
def stopW (s : WorkerState) : WorkerState :=
  if s.started then discardTimeout { s with started := false } else s

/-- The `finished` getter: queue empty and no task processing. -/
def finishedW (s : WorkerState) : Bool :=
  s.queue.isEmpty && !s.processing

/-- The `running` getter: started and not finished. -/
def runningW (s : WorkerState) : Bool :=
  s.started && !finishedW s

/-- `RegionWorker.resetProgress`: throws when running; otherwise zeroes the
three counters, clears `queueFilled`, clears the queue and bumps the cancel
epoch. -/
def resetProgress (s : WorkerState) : Except String WorkerState :=
  if runningW s then .error "cannot reset progress while running"
  else .ok { s with progressDone := 0, progressTotal := 0, progressErrors := 0
                    queueFilled := false, queue := [], cancel := s.cancel + 1 }

/-- `RegionWorker.cancelled`: a token is stale when it differs from the
current epoch. -/
def cancelledW (s : WorkerState) (token : Nat) : Bool :=
  s.cancel != token

/-- The pacer timer firing (`window.setTimeout` callback plus
`processQueue`): only enabled once the armed instant has been reached; it
clears its own handle, then pops and starts at most one task, capturing the
current cancel token. -/
def fireW (s : WorkerState) : WorkerState :=
  match s.timeout with
  | none => s
  | some ft =>
    if ft ≤ s.now then
      match popMin s.queue with
      | none => { s with timeout := none }
      | some (it, rest) =>
        { s with timeout := none, queue := rest, processing := true
                 inFlight := ⟨it, s.cancel⟩ :: s.inFlight
                 lastAdmit := some s.now }
    else s

/-- A popped task's action promise settling (the `.catch`/`.finally` chain in
`processQueue`): when the captured token is still current, a failure
increments `_progressErrors` and every terminal outcome increments
`_progressDone`; a stale outcome changes no counter.  In all cases
`processing` is cleared and `ensureTimeout` re-arms the pacer. -/
def completeW (d : Nat) (t : InFlight) (failed : Bool) (s : WorkerState) :
    WorkerState :=
  if t ∈ s.inFlight then
    ensureTimeout d
      { s with
        progressErrors := s.progressErrors +
          (if failed && !cancelledW s t.token then 1 else 0)
        progressDone := s.progressDone +
          (if !cancelledW s t.token then 1 else 0)
        processing := false
        inFlight := removeOne s.inFlight t }
  else s

/-- Everything that can happen to a worker: an external `enqueue`, the
lifecycle calls, the pacer firing, a task settling, and time passing. -/
inductive Event where
  | enqueue (p : Nat)
  | start (fill : List Nat)
  | stop
  | reset
  | fire
  | complete (t : InFlight) (failed : Bool)
  | advance (dt : Nat)
deriving DecidableEq, Repr

/-- Interpret one event.  A `reset` that throws leaves the state unchanged. -/
def stepFn (d : Nat) (e : Event) (s : WorkerState) : WorkerState :=
  match e with
  | .enqueue p => enqueueW d p s
  | .start fill => startW d fill s
  | .stop => stopW s
  | .reset =>
    match resetProgress s with
    | .ok s1 => s1
    | .error _ => s
  | .fire => fireW s
  | .complete t failed => completeW d t failed s
  | .advance dt => { s with now := s.now + dt }

/-- Run a sequence of events from a state. -/
def run (d : Nat) (evs : List Event) (s : WorkerState) : WorkerState :=
  evs.foldl (fun s e => stepFn d e s) s

/-- A state is reachable when some event sequence produces it from the
freshly constructed worker. -/
def reachableW (d : Nat) (s : WorkerState) : Prop :=
  ∃ evs, s = run d evs initW

/-- How many in-flight tasks carry a given cancel token. -/
def countTok (c : Nat) : List InFlight → Nat
  | [] => 0
  | t :: ts => (if t.token = c then 1 else 0) + countTok c ts

/-- The counter invariant: errors never outrun terminal outcomes, and every
terminal outcome, queued item, and current-token in-flight task is backed by
a distinct enqueue; in-flight tokens never exceed the live epoch. -/
def InvC1 (s : WorkerState) : Prop :=
  s.progressErrors ≤ s.progressDone ∧
  s.progressDone + s.queue.length + countTok s.cancel s.inFlight ≤
    s.progressTotal ∧
  ∀ t ∈ s.inFlight, t.token ≤ s.cancel

/-- The armed-pacer invariant that actually holds on the code: a started
worker with a non-empty queue always has the pacer armed or a task
processing. -/
def InvC3 (s : WorkerState) : Prop :=
  s.started = true → s.queue ≠ [] →
    s.timeout.isSome = true ∨ s.processing = true

/-- Pacing invariant: an armed firing instant lies at least one full delay
after the most recent admission, and the most recent admission is in the
past. -/
def InvPace (d : Nat) (s : WorkerState) : Prop :=
  (∀ ft la, s.timeout = some ft → s.lastAdmit = some la → la + d ≤ ft) ∧
  (∀ la, s.lastAdmit = some la → la ≤ s.now)

/-- How many `enqueue` calls one event performs: an external `enqueue` is
one; a `start` that seeds performs one per `fillQueue` item; nothing else
calls `enqueue`. -/
def eventEnqueues (s : WorkerState) : Event → Nat
  | .enqueue _ => 1
  | .start fill =>
    if s.started then 0 else if s.queueFilled then 0 else fill.length
  | _ => 0

/-- Total number of `enqueue` calls performed along an event sequence. -/
def enqueueCount (d : Nat) (s : WorkerState) : List Event → Nat
  | [] => 0
  | e :: evs => eventEnqueues s e + enqueueCount d (stepFn d e s) evs

/-- One remote page fetch as the scheduler observes it: either the request
promise resolves (with the response reporting whether a further page exists
and whether `nextPage()` yields a handle), or it rejects. -/
inductive PageFetch where
  | fetched (hasNext : Bool) (nextAvail : Bool)
  | failed
deriving DecidableEq, Repr

/-- How the overall promise of `enqueuePagedRequest` ends up settled after a
chain of page fetches (or still pending when the provided chain is cut
short). -/
inductive PagedOutcome where
  | resolved
  | rejectedCancelled
  | rejectedFetch
  | rejectedLiar
  | pending
deriving DecidableEq, Repr

/-- Observable effects of one pagination chain: how the overall promise
settles, how many times the page handler ran, and how many continuation
tasks were pushed back onto the queue. -/
structure PagedRun where
  outcome : PagedOutcome
  handlerCalls : Nat
  contEnqueues : Nat
deriving DecidableEq, Repr

/-- `RegionWorker.handlePagedResponse` (plus the `.catch` installed by
`enqueuePagedRequest` and by each continuation), folded over the successive
fetch results the remote source yields; the `Bool` paired with each fetch
says whether the running task's token is stale when that response arrives.
A failed fetch rejects the overall promise with the fetch error; a stale
response rejects it with the cancelled marker before the handler runs; a
response claiming a next page without a retrievable handle throws, which the
continuation's catch turns into a rejection of the overall promise. -/
def runPaged : List (Bool × PageFetch) → PagedRun
  | [] => ⟨.pending, 0, 0⟩
  | (_, .failed) :: _ => ⟨.rejectedFetch, 0, 0⟩
  | (stale, .fetched hasNext nextAvail) :: rest =>
    if stale then ⟨.rejectedCancelled, 0, 0⟩
    else if hasNext then
      if nextAvail then
        ⟨(runPaged rest).outcome, (runPaged rest).handlerCalls + 1,
          (runPaged rest).contEnqueues + 1⟩
      else ⟨.rejectedLiar, 1, 0⟩
    else ⟨.resolved, 1, 0⟩

/-- How the promise returned by `enqueueRequest` is settled by its response
callback. -/
inductive Settled (R : Type) where
  | resolvedWith (r : R)
  | rejectedCancelled

/-- The `.then` callback installed by `RegionWorker.enqueueRequest` on the
request promise, run when the response arrives with the worker in state `s`:
if the captured token is stale it rejects the outer promise with
`'cancelled'` and returns; otherwise it resolves it with the handler's
result.  The `Bool` records whether the handler was invoked. -/
def enqueueRequestOnResponse {D R : Type} (s : WorkerState) (token : Nat)
    (handler : D → R) (response : D) : Settled R × Bool :=
  if cancelledW s token then (.rejectedCancelled, false)
  else (.resolvedWith (handler response), true)

theorem popMin_none : ∀ {l : List QueueItem}, popMin l = none → l = [] := by
  intro l h
  cases l with
  | nil => rfl
  | cons x xs =>
    unfold popMin at h
    cases hx : popMin xs with
    | none => rw [hx] at h; exact absurd h (by simp)
    | some p =>
      obtain ⟨y, ys⟩ := p
      rw [hx] at h
      dsimp at h
      split at h <;> simp at h

theorem popMin_length : ∀ {l : List QueueItem} {it : QueueItem}
    {rest : List QueueItem},
    popMin l = some (it, rest) → rest.length + 1 = l.length := by
  intro l
  induction l with
  | nil => intro it rest h; simp [popMin] at h
  | cons x xs ih =>
    intro it rest h
    unfold popMin at h
    cases hx : popMin xs with
    | none =>
      rw [hx] at h
      obtain ⟨rfl, rfl⟩ := by exact Prod.mk.injEq .. ▸ Option.some.inj h
      simp [popMin_none hx]
    | some p =>
      obtain ⟨y, ys⟩ := p
      rw [hx] at h
      dsimp at h
      split at h
      · obtain ⟨rfl, rfl⟩ := by exact Prod.mk.injEq .. ▸ Option.some.inj h
        simp
      · obtain ⟨rfl, rfl⟩ := by exact Prod.mk.injEq .. ▸ Option.some.inj h
        have := ih hx
        simp at this ⊢
        omega

theorem mem_removeOne {l : List InFlight} {a t : InFlight}
    (h : a ∈ removeOne l t) : a ∈ l := by
  induction l with
  | nil => simp [removeOne] at h
  | cons x xs ih =>
    unfold removeOne at h
    split at h
    · exact List.mem_cons_of_mem _ h
    · rcases List.mem_cons.mp h with h1 | h1
      · exact h1 ▸ List.mem_cons_self x xs
      · exact List.mem_cons_of_mem _ (ih h1)

theorem countTok_removeOne {l : List InFlight} {t : InFlight} (c : Nat)
    (h : t ∈ l) :
    countTok c (removeOne l t) + (if t.token = c then 1 else 0) =
      countTok c l := by
  induction l with
  | nil => simp at h
  | cons x xs ih =>
    unfold removeOne
    split
    · rename_i hx
      subst hx
      simp only [countTok]
      omega
    · rename_i hx
      have hmem : t ∈ xs := by
        rcases List.mem_cons.mp h with h1 | h1
        · exact absurd h1.symm hx
        · exact h1
      simp only [countTok]
      have := ih hmem
      omega

theorem countTok_eq_zero {c : Nat} {l : List InFlight}
    (h : ∀ t ∈ l, t.token ≠ c) : countTok c l = 0 := by
  induction l with
  | nil => rfl
  | cons x xs ih =>
    simp only [countTok]
    rw [if_neg (h x (List.mem_cons_self x xs))]
    simp [ih (fun t ht => h t (List.mem_cons_of_mem x ht))]

/-- `ensureTimeout` either leaves the state alone or only arms the timer. -/
theorem ensureTimeout_spec (d : Nat) (s : WorkerState) :
    ensureTimeout d s = s ∨
    ensureTimeout d s = { s with timeout := some (s.now + d) } := by
  unfold ensureTimeout
  cases s.timeout
  · right; rfl
  · left; rfl

/-- Invariant induction principle over runs. -/
theorem inv_run {P : WorkerState → Prop} (d : Nat)
    (hstep : ∀ e s, P s → P (stepFn d e s)) :
    ∀ evs s, P s → P (run d evs s) := by
  intro evs
  induction evs with
  | nil => intro s h; exact h
  | cons e evs ih => intro s h; exact ih _ (hstep e s h)

/-- Invariant induction principle over reachable states. -/
theorem inv_reachable {P : WorkerState → Prop} (d : Nat)
    (hinit : P initW) (hstep : ∀ e s, P s → P (stepFn d e s))
    {s : WorkerState} (h : reachableW d s) : P s := by
  obtain ⟨evs, rfl⟩ := h
  exact inv_run d hstep evs initW hinit

theorem invC1_ensureTimeout {d : Nat} {s : WorkerState} (h : InvC1 s) :
    InvC1 (ensureTimeout d s) := by
  rcases ensureTimeout_spec d s with he | he <;> rw [he] <;> exact h

theorem invC1_enqueueW {d p : Nat} {s : WorkerState} (h : InvC1 s) :
    InvC1 (enqueueW d p s) := by
  obtain ⟨h1, h2, h3⟩ := h
  have hp : InvC1 (pushItem p s) := by
    refine ⟨h1, ?_, h3⟩
    simp only [pushItem, List.length_append, List.length_cons,
      List.length_nil]
    omega
  unfold enqueueW
  split
  · exact invC1_ensureTimeout hp
  · exact hp

theorem invC1_enqueueAll {d : Nat} {ps : List Nat} {s : WorkerState}
    (h : InvC1 s) : InvC1 (enqueueAll d ps s) := by
  induction ps generalizing s with
  | nil => exact h
  | cons p ps ih => exact ih (invC1_enqueueW h)

theorem countTok_cons (c : Nat) (t : InFlight) (l : List InFlight) :
    countTok c (t :: l) = (if t.token = c then 1 else 0) + countTok c l := rfl

theorem invC1_seedQueue {d : Nat} {fill : List Nat} {s : WorkerState}
    (h : InvC1 s) : InvC1 (seedQueue d fill s) := by
  unfold seedQueue
  split
  · exact h
  · exact invC1_enqueueAll h

/-- The reset event either rejects (running) or clears the bookkeeping. -/
theorem stepFn_reset (d : Nat) (s : WorkerState) :
    stepFn d .reset s =
      if runningW s = true then s
      else { s with progressDone := 0, progressTotal := 0,
                    progressErrors := 0, queueFilled := false, queue := []
                    cancel := s.cancel + 1 } := by
  show (match resetProgress s with | .ok s1 => s1 | .error _ => s) = _
  unfold resetProgress
  by_cases hr : runningW s = true
  · rw [if_pos hr, if_pos hr]
  · rw [if_neg hr, if_neg hr]

theorem invC1_step (d : Nat) (e : Event) (s : WorkerState) (h : InvC1 s) :
    InvC1 (stepFn d e s) := by
  cases e with
  | enqueue p =>
    show InvC1 (enqueueW d p s)
    exact invC1_enqueueW h
  | start fill =>
    show InvC1 (startW d fill s)
    unfold startW
    split
    · exact h
    · exact invC1_seedQueue (invC1_ensureTimeout h)
  | stop =>
    show InvC1 (stopW s)
    unfold stopW discardTimeout
    split
    · exact h
    · exact h
  | reset =>
    obtain ⟨h1, h2, h3⟩ := h
    rw [stepFn_reset]
    split
    · exact ⟨h1, h2, h3⟩
    · refine ⟨Nat.le_refl 0, ?_, ?_⟩
      · have hz : countTok (s.cancel + 1) s.inFlight = 0 :=
          countTok_eq_zero (fun t ht => by have := h3 t ht; omega)
        show 0 + ([] : List QueueItem).length +
          countTok (s.cancel + 1) s.inFlight ≤ 0
        simp [hz]
      · intro t ht
        show t.token ≤ s.cancel + 1
        have := h3 t ht
        omega
  | fire =>
    obtain ⟨h1, h2, h3⟩ := h
    show InvC1 (fireW s)
    unfold fireW
    cases hto : s.timeout with
    | none => exact ⟨h1, h2, h3⟩
    | some ft =>
      dsimp only
      split
      · cases hq : popMin s.queue with
        | none => exact ⟨h1, h2, h3⟩
        | some p =>
          obtain ⟨it, rest⟩ := p
          have hlen := popMin_length hq
          refine ⟨h1, ?_, ?_⟩
          · show s.progressDone + rest.length +
              countTok s.cancel (⟨it, s.cancel⟩ :: s.inFlight) ≤
                s.progressTotal
            rw [countTok_cons, if_pos rfl]
            omega
          · intro t ht
            rcases List.mem_cons.mp ht with h4 | h4
            · subst h4; exact Nat.le_refl _
            · exact h3 t h4
      · exact ⟨h1, h2, h3⟩
  | complete t failed =>
    obtain ⟨h1, h2, h3⟩ := h
    show InvC1 (completeW d t failed s)
    unfold completeW
    split
    · rename_i hmem
      apply invC1_ensureTimeout
      have hc := countTok_removeOne (l := s.inFlight) (t := t) s.cancel hmem
      by_cases hcur : s.cancel = t.token
      · have hcb : cancelledW s t.token = false := by
          simp [cancelledW, hcur]
        rw [hcb]
        have hc1 : countTok s.cancel (removeOne s.inFlight t) + 1 =
            countTok s.cancel s.inFlight := by
          rw [if_pos hcur.symm] at hc; exact hc
        refine ⟨?_, ?_, ?_⟩
        · cases failed
          · show s.progressErrors + 0 ≤ s.progressDone + 1
            omega
          · show s.progressErrors + 1 ≤ s.progressDone + 1
            omega
        · show s.progressDone + 1 + s.queue.length +
            countTok s.cancel (removeOne s.inFlight t) ≤ s.progressTotal
          omega
        · intro a ha
          exact h3 a (mem_removeOne ha)
      · have hcb : cancelledW s t.token = true := by
          simp [cancelledW]
          exact fun hh => hcur hh
        rw [hcb]
        have hc1 : countTok s.cancel (removeOne s.inFlight t) =
            countTok s.cancel s.inFlight := by
          rw [if_neg (fun hh => hcur hh.symm)] at hc; omega
        refine ⟨?_, ?_, ?_⟩
        · cases failed
          · show s.progressErrors + 0 ≤ s.progressDone + 0
            omega
          · show s.progressErrors + 0 ≤ s.progressDone + 0
            omega
        · show s.progressDone + 0 + s.queue.length +
            countTok s.cancel (removeOne s.inFlight t) ≤ s.progressTotal
          omega
        · intro a ha
          exact h3 a (mem_removeOne ha)
    · exact ⟨h1, h2, h3⟩
  | advance dt => exact h

theorem invC1_reachable {d : Nat} {s : WorkerState} (h : reachableW d s) :
    InvC1 s :=
  inv_reachable d
    ⟨Nat.le_refl 0, Nat.le_refl 0, by intro t ht; simp [initW] at ht⟩
    (invC1_step d) h

theorem ensureTimeout_isSome (d : Nat) (s : WorkerState) :
    (ensureTimeout d s).timeout.isSome = true := by
  unfold ensureTimeout
  cases hto : s.timeout <;> simp [hto]

theorem ensureTimeout_started (d : Nat) (s : WorkerState) :
    (ensureTimeout d s).started = s.started := by
  rcases ensureTimeout_spec d s with he | he <;> rw [he]

theorem enqueueW_started (d p : Nat) (s : WorkerState) :
    (enqueueW d p s).started = s.started := by
  unfold enqueueW
  split
  · rw [ensureTimeout_started]
    rfl
  · rfl


theorem enqueueW_isSome (d p : Nat) (s : WorkerState)
    (h : s.timeout.isSome = true) :
    (enqueueW d p s).timeout.isSome = true := by
  unfold enqueueW
  split
  · exact ensureTimeout_isSome d _
  · exact h

theorem enqueueW_isSome_of_started (d p : Nat) (s : WorkerState)
    (h : s.started = true) :
    (enqueueW d p s).timeout.isSome = true := by
  unfold enqueueW
  rw [if_pos (show (pushItem p s).started = true from h)]
  exact ensureTimeout_isSome d _

theorem enqueueAll_started (d : Nat) (ps : List Nat) (s : WorkerState) :
    (enqueueAll d ps s).started = s.started := by
  induction ps generalizing s with
  | nil => rfl
  | cons p ps ih =>
    rw [show enqueueAll d (p :: ps) s = enqueueAll d ps (enqueueW d p s)
      from rfl, ih, enqueueW_started]

theorem enqueueAll_isSome (d : Nat) (ps : List Nat) (s : WorkerState)
    (h : s.timeout.isSome = true) :
    (enqueueAll d ps s).timeout.isSome = true := by
  induction ps generalizing s with
  | nil => exact h
  | cons p ps ih => exact ih _ (enqueueW_isSome d p s h)

theorem seedQueue_started (d : Nat) (fill : List Nat) (s : WorkerState) :
    (seedQueue d fill s).started = s.started := by
  unfold seedQueue
  split
  · rfl
  · rw [enqueueAll_started]

theorem seedQueue_isSome (d : Nat) (fill : List Nat) (s : WorkerState)
    (h : s.timeout.isSome = true) :
    (seedQueue d fill s).timeout.isSome = true := by
  unfold seedQueue
  split
  · exact h
  · exact enqueueAll_isSome d fill _ h

theorem startW_started (d : Nat) (fill : List Nat) (s : WorkerState) :
    (startW d fill s).started = true := by
  unfold startW
  split
  · assumption
  · rw [seedQueue_started, ensureTimeout_started]

/-- Characterizations of the pacer firing. -/
theorem fireW_of_none {s : WorkerState} (h : s.timeout = none) :
    fireW s = s := by
  unfold fireW
  rw [h]

theorem fireW_of_notyet {s : WorkerState} {ft : Nat}
    (h : s.timeout = some ft) (h2 : ¬ ft ≤ s.now) : fireW s = s := by
  unfold fireW
  rw [h]
  dsimp only
  rw [if_neg h2]

theorem fireW_of_empty {s : WorkerState} {ft : Nat}
    (h : s.timeout = some ft) (h2 : ft ≤ s.now)
    (h3 : popMin s.queue = none) :
    fireW s = { s with timeout := none } := by
  unfold fireW
  rw [h]
  dsimp only
  rw [if_pos h2, h3]

theorem fireW_of_pop {s : WorkerState} {ft : Nat} {it : QueueItem}
    {rest : List QueueItem} (h : s.timeout = some ft) (h2 : ft ≤ s.now)
    (h3 : popMin s.queue = some (it, rest)) :
    fireW s = { s with timeout := none, queue := rest, processing := true
                       inFlight := ⟨it, s.cancel⟩ :: s.inFlight
                       lastAdmit := some s.now } := by
  unfold fireW
  rw [h]
  dsimp only
  rw [if_pos h2, h3]

theorem invC3_step (d : Nat) (e : Event) (s : WorkerState) (h : InvC3 s) :
    InvC3 (stepFn d e s) := by
  cases e with
  | enqueue p =>
    show InvC3 (enqueueW d p s)
    intro hst hq
    by_cases hs : s.started = true
    · left
      exact enqueueW_isSome_of_started d p s hs
    · rw [enqueueW_started] at hst
      exact absurd hst hs
  | start fill =>
    show InvC3 (startW d fill s)
    unfold startW
    split
    · exact h
    · intro _ _
      left
      exact seedQueue_isSome d fill _ (ensureTimeout_isSome d _)
  | stop =>
    show InvC3 (stopW s)
    unfold stopW discardTimeout
    split
    · intro hst _
      exact absurd hst (Bool.false_ne_true)
    · exact h
  | reset =>
    rw [stepFn_reset]
    split
    · exact h
    · intro _ hq
      exact absurd rfl hq
  | fire =>
    show InvC3 (fireW s)
    cases hto : s.timeout with
    | none => rw [fireW_of_none hto]; exact h
    | some ft =>
      by_cases hle : ft ≤ s.now
      · cases hq : popMin s.queue with
        | none =>
          rw [fireW_of_empty hto hle hq]
          intro _ hne
          exact absurd (popMin_none hq) hne
        | some p =>
          obtain ⟨it, rest⟩ := p
          rw [fireW_of_pop hto hle hq]
          intro _ _
          right
          rfl
      · rw [fireW_of_notyet hto hle]; exact h
  | complete t failed =>
    show InvC3 (completeW d t failed s)
    unfold completeW
    split
    · intro _ _
      left
      exact ensureTimeout_isSome d _
    · exact h
  | advance dt => exact h

theorem invC3_reachable {d : Nat} {s : WorkerState} (h : reachableW d s) :
    InvC3 s :=
  inv_reachable d (by intro h1 h2; simp [initW] at h1) (invC3_step d) h

/-- C1, counterexample: a single enqueued task whose action rejects while
its token is still current yields `_progressDone = 1` and
`_progressErrors = 1` against `_progressTotal = 1`, so the sum of the
completed and failed counters strictly exceeds the dispatched counter in a
reachable state. -/
theorem c1_sum_counterexample :
    reachableW 1
      (run 1 [.start [0], .advance 1, .fire, .complete ⟨⟨0, 0⟩, 0⟩ true]
        initW) ∧
    (run 1 [.start [0], .advance 1, .fire, .complete ⟨⟨0, 0⟩, 0⟩ true]
        initW).progressTotal <
      (run 1 [.start [0], .advance 1, .fire, .complete ⟨⟨0, 0⟩, 0⟩ true]
          initW).progressDone +
        (run 1 [.start [0], .advance 1, .fire, .complete ⟨⟨0, 0⟩, 0⟩ true]
            initW).progressErrors :=
  ⟨⟨[.start [0], .advance 1, .fire, .complete ⟨⟨0, 0⟩, 0⟩ true], rfl⟩,
    by decide⟩

/-- C1, amended: at every observable instant of every run since the last
reset, `_progressDone ≤ _progressTotal` and
`_progressErrors ≤ _progressDone`.  The claimed
`_progressDone + _progressErrors ≤ _progressTotal` fails because a failed
current-generation task increments both `_progressDone` (in the `finally`
handler) and `_progressErrors` (in the `catch` handler). -/
theorem c1_counters_bounded (d : Nat) (s : WorkerState)
    (h : reachableW d s) :
    s.progressErrors ≤ s.progressDone ∧
      s.progressDone ≤ s.progressTotal := by
  obtain ⟨h1, h2, _⟩ := invC1_reachable h
  exact ⟨h1, by omega⟩

/-- Witness for `c1_counters_bounded` at a concrete reachable state. -/
theorem c1_counters_bounded_witness :
    (run 1 [.start [1, 0], .advance 1, .fire, .complete ⟨⟨0, 1⟩, 0⟩ true]
        initW).progressErrors ≤
      (run 1 [.start [1, 0], .advance 1, .fire, .complete ⟨⟨0, 1⟩, 0⟩ true]
          initW).progressDone ∧
    (run 1 [.start [1, 0], .advance 1, .fire, .complete ⟨⟨0, 1⟩, 0⟩ true]
        initW).progressDone ≤
      (run 1 [.start [1, 0], .advance 1, .fire, .complete ⟨⟨0, 1⟩, 0⟩ true]
          initW).progressTotal :=
  c1_counters_bounded 1 _
    ⟨[.start [1, 0], .advance 1, .fire, .complete ⟨⟨0, 1⟩, 0⟩ true], rfl⟩

theorem invPace_ensureTimeout {d : Nat} {s : WorkerState}
    (h : InvPace d s) : InvPace d (ensureTimeout d s) := by
  obtain ⟨h1, h2⟩ := h
  unfold ensureTimeout
  cases hto : s.timeout with
  | some ft => exact ⟨h1, h2⟩
  | none =>
    refine ⟨?_, h2⟩
    intro ft la hft hla
    have hft2 : some (s.now + d) = some ft := hft
    have := h2 la hla
    have := Option.some.inj hft2
    omega

theorem invPace_enqueueW {d p : Nat} {s : WorkerState} (h : InvPace d s) :
    InvPace d (enqueueW d p s) := by
  unfold enqueueW
  split
  · exact invPace_ensureTimeout h
  · exact h

theorem invPace_enqueueAll {d : Nat} {ps : List Nat} {s : WorkerState}
    (h : InvPace d s) : InvPace d (enqueueAll d ps s) := by
  induction ps generalizing s with
  | nil => exact h
  | cons p ps ih => exact ih (invPace_enqueueW h)

theorem invPace_seedQueue {d : Nat} {fill : List Nat} {s : WorkerState}
    (h : InvPace d s) : InvPace d (seedQueue d fill s) := by
  unfold seedQueue
  split
  · exact h
  · exact invPace_enqueueAll h

theorem invPace_step (d : Nat) (e : Event) (s : WorkerState)
    (h : InvPace d s) : InvPace d (stepFn d e s) := by
  cases e with
  | enqueue p =>
    show InvPace d (enqueueW d p s)
    exact invPace_enqueueW h
  | start fill =>
    show InvPace d (startW d fill s)
    unfold startW
    split
    · exact h
    · exact invPace_seedQueue (invPace_ensureTimeout h)
  | stop =>
    obtain ⟨h1, h2⟩ := h
    show InvPace d (stopW s)
    unfold stopW discardTimeout
    split
    · refine ⟨?_, h2⟩
      intro ft la hft hla
      have hft2 : (none : Option Nat) = some ft := hft
      exact Option.noConfusion hft2
    · exact ⟨h1, h2⟩
  | reset =>
    rw [stepFn_reset]
    split
    · exact h
    · exact h
  | fire =>
    obtain ⟨h1, h2⟩ := h
    show InvPace d (fireW s)
    cases hto : s.timeout with
    | none => rw [fireW_of_none hto]; exact ⟨h1, h2⟩
    | some ft =>
      by_cases hle : ft ≤ s.now
      · cases hq : popMin s.queue with
        | none =>
          rw [fireW_of_empty hto hle hq]
          refine ⟨?_, h2⟩
          intro ft2 la hft hla
          have hft2 : (none : Option Nat) = some ft2 := hft
          exact Option.noConfusion hft2
        | some p =>
          obtain ⟨it, rest⟩ := p
          rw [fireW_of_pop hto hle hq]
          refine ⟨?_, ?_⟩
          · intro ft2 la hft hla
            have hft2 : (none : Option Nat) = some ft2 := hft
            exact Option.noConfusion hft2
          · intro la hla
            have hla2 : some s.now = some la := hla
            have := Option.some.inj hla2
            show la ≤ s.now
            omega
      · rw [fireW_of_notyet hto hle]; exact ⟨h1, h2⟩
  | complete t failed =>
    show InvPace d (completeW d t failed s)
    unfold completeW
    split
    · exact invPace_ensureTimeout h
    · exact h
  | advance dt =>
    obtain ⟨h1, h2⟩ := h
    refine ⟨h1, ?_⟩
    intro la hla
    have := h2 la hla
    show la ≤ s.now + dt
    omega

theorem invPace_reachable {d : Nat} {s : WorkerState}
    (h : reachableW d s) : InvPace d s :=
  inv_reachable d
    ⟨by intro ft la hft hla; simp [initW] at hft,
     by intro la hla; simp [initW] at hla⟩
    (invPace_step d) h

/-- C2, counterexample: tasks do NOT execute strictly one-at-a-time.  Start
a worker whose `fillQueue` enqueues two tasks, let the pacer admit the
first, then `enqueue` a third task while the first is still in flight: this
re-arms the pacer (the timer cleared its own handle when it fired), and the
new timer fires and pops a second task before the first completes, leaving
two task actions simultaneously in flight in a reachable state. -/
theorem c2_two_in_flight_counterexample :
    reachableW 1
      (run 1 [.start [0, 0], .advance 1, .fire, .enqueue 0, .advance 1,
        .fire] initW) ∧
    (run 1 [.start [0, 0], .advance 1, .fire, .enqueue 0, .advance 1,
        .fire] initW).inFlight.length = 2 :=
  ⟨⟨[.start [0, 0], .advance 1, .fire, .enqueue 0, .advance 1, .fire],
    rfl⟩, by decide⟩

/-- C2, amended: at most one task is admitted (popped and started) per pacer
delay interval: whenever a fire step performs an admission, the new
admission instant lies at least `workDelay` after the previous admission
instant.  The claim's other half — that two task actions are never
simultaneously in flight — fails on the code (see the counterexample): an
`enqueue` arriving while a task is processing re-arms the pacer, which can
admit a second task before the first settles. -/
theorem c2_admissions_spaced (d : Nat) (s : WorkerState)
    (h : reachableW d s) (la la2 : Nat) (hla : s.lastAdmit = some la)
    (hadm : s.inFlight.length < (stepFn d .fire s).inFlight.length)
    (hla2 : (stepFn d .fire s).lastAdmit = some la2) :
    la + d ≤ la2 := by
  obtain ⟨h1, h2⟩ := invPace_reachable h
  have hfw : stepFn d .fire s = fireW s := rfl
  rw [hfw] at hadm hla2
  cases hto : s.timeout with
  | none =>
    rw [fireW_of_none hto] at hadm
    exact absurd hadm (lt_irrefl _)
  | some ft =>
    by_cases hle : ft ≤ s.now
    · cases hq : popMin s.queue with
      | none =>
        rw [fireW_of_empty hto hle hq] at hadm
        exact absurd hadm (lt_irrefl _)
      | some p =>
        obtain ⟨it, rest⟩ := p
        rw [fireW_of_pop hto hle hq] at hla2
        have hla2e : some s.now = some la2 := hla2
        have hft := h1 ft la hto hla
        have := Option.some.inj hla2e
        omega
    · rw [fireW_of_notyet hto hle] at hadm
      exact absurd hadm (lt_irrefl _)

/-- Witness for `c2_admissions_spaced`: the second admission in the
counterexample trace happens exactly one delay after the first. -/
theorem c2_admissions_spaced_witness : 1 + 1 ≤ 2 :=
  c2_admissions_spaced 1
    (run 1 [.start [0, 0], .advance 1, .fire, .enqueue 0, .advance 1] initW)
    ⟨[.start [0, 0], .advance 1, .fire, .enqueue 0, .advance 1], rfl⟩
    1 2 (by decide) (by decide) (by decide)

/-- C3, counterexample: the pacer CAN be armed while the worker is stopped.
Start a worker with one task, let the pacer admit it, call `stop` (which
disarms the pacer), then let the task's promise settle: the `finally`
handler calls `ensureTimeout` unconditionally, so the worker ends up with
`_started = false` and the pacer armed. -/
theorem c3_armed_while_stopped_counterexample :
    reachableW 1
      (run 1 [.start [0], .advance 1, .fire, .stop,
        .complete ⟨⟨0, 0⟩, 0⟩ false] initW) ∧
    (run 1 [.start [0], .advance 1, .fire, .stop,
        .complete ⟨⟨0, 0⟩, 0⟩ false] initW).started = false ∧
    (run 1 [.start [0], .advance 1, .fire, .stop,
        .complete ⟨⟨0, 0⟩, 0⟩ false] initW).timeout.isSome = true :=
  ⟨⟨[.start [0], .advance 1, .fire, .stop, .complete ⟨⟨0, 0⟩, 0⟩ false],
    rfl⟩, by decide, by decide⟩

/-- C3, amended: only the forward direction of the claimed biconditional
holds: in every reachable state, if the worker is started and the queue is
non-empty then the pacer is armed or a task is currently processing (whose
completion re-arms it).  The converse — and in particular "the pacer is
never armed while the worker is stopped" — fails, because task completion
re-arms the pacer unconditionally (see the counterexample). -/
theorem c3_pacer_armed (d : Nat) (s : WorkerState) (h : reachableW d s)
    (hst : s.started = true) (hq : s.queue ≠ []) :
    s.timeout.isSome = true ∨ s.processing = true :=
  invC3_reachable h hst hq

/-- Witness for `c3_pacer_armed` at a concrete reachable state. -/
theorem c3_pacer_armed_witness :
    (run 1 [.start [0]] initW).timeout.isSome = true ∨
      (run 1 [.start [0]] initW).processing = true :=
  c3_pacer_armed 1 _ ⟨[.start [0]], rfl⟩ (by decide) (by decide)

theorem ensureTimeout_counters (d : Nat) (s : WorkerState) :
    (ensureTimeout d s).progressDone = s.progressDone ∧
    (ensureTimeout d s).progressErrors = s.progressErrors ∧
    (ensureTimeout d s).progressTotal = s.progressTotal := by
  rcases ensureTimeout_spec d s with he | he <;> rw [he] <;>
    exact ⟨rfl, rfl, rfl⟩

/-- C4: for every task whose cancel token was captured strictly before the
most recent reset (token differs from the current epoch), its terminal
outcome — resolution or rejection of its action's promise — changes none of
the three progress counters. -/
theorem c4_stale_outcome_no_counter_change (d : Nat) (s : WorkerState)
    (t : InFlight) (failed : Bool) (hstale : t.token ≠ s.cancel) :
    (completeW d t failed s).progressDone = s.progressDone ∧
    (completeW d t failed s).progressErrors = s.progressErrors ∧
    (completeW d t failed s).progressTotal = s.progressTotal := by
  unfold completeW
  split
  · have hcb : cancelledW s t.token = true := by
      simp [cancelledW]
      exact fun hh => hstale hh.symm
    rw [hcb]
    obtain ⟨e1, e2, e3⟩ := ensureTimeout_counters d _
    refine ⟨?_, ?_, ?_⟩
    · rw [e1]
      rfl
    · rw [e2]
      cases failed <;> rfl
    · rw [e3]
  · exact ⟨rfl, rfl, rfl⟩

/-- Witness for `c4_stale_outcome_no_counter_change`: after stop and reset,
the still in-flight task from the previous generation settles (here: with a
rejection) without touching any counter. -/
theorem c4_stale_outcome_witness :
    (completeW 1 ⟨⟨0, 0⟩, 0⟩ true
        (run 1 [.start [0], .advance 1, .fire, .stop, .reset]
          initW)).progressDone =
      (run 1 [.start [0], .advance 1, .fire, .stop, .reset]
        initW).progressDone ∧
    (completeW 1 ⟨⟨0, 0⟩, 0⟩ true
        (run 1 [.start [0], .advance 1, .fire, .stop, .reset]
          initW)).progressErrors =
      (run 1 [.start [0], .advance 1, .fire, .stop, .reset]
        initW).progressErrors ∧
    (completeW 1 ⟨⟨0, 0⟩, 0⟩ true
        (run 1 [.start [0], .advance 1, .fire, .stop, .reset]
          initW)).progressTotal =
      (run 1 [.start [0], .advance 1, .fire, .stop, .reset]
        initW).progressTotal :=
  c4_stale_outcome_no_counter_change 1 _ ⟨⟨0, 0⟩, 0⟩ true (by decide)

/-- C5: `resetProgress` called while `running` is true throws the
invalid-state error and leaves the whole state unchanged; called while not
running it clears the queue, zeroes the three counters, clears
`queueFilled`, and increments the epoch, leaving every other field as it
was. -/
theorem c5_reset_behavior (s : WorkerState) :
    (runningW s = true →
      resetProgress s = .error "cannot reset progress while running" ∧
      ∀ d, stepFn d .reset s = s) ∧
    (runningW s = false →
      resetProgress s =
        .ok { s with progressDone := 0, progressTotal := 0,
                     progressErrors := 0, queueFilled := false, queue := [],
                     cancel := s.cancel + 1 }) := by
  constructor
  · intro hr
    constructor
    · unfold resetProgress
      rw [if_pos hr]
    · intro d
      rw [stepFn_reset, if_pos hr]
  · intro hr
    unfold resetProgress
    rw [if_neg (by simp [hr])]

/-- Witness for `c5_reset_behavior`: a started worker with one queued task
is running, so reset throws there; the fresh worker is not running, so reset
succeeds there. -/
theorem c5_reset_behavior_witness :
    (resetProgress (run 1 [.start [0]] initW) =
        .error "cannot reset progress while running" ∧
      stepFn 1 .reset (run 1 [.start [0]] initW) =
        run 1 [.start [0]] initW) ∧
    resetProgress initW =
      .ok { initW with progressDone := 0, progressTotal := 0,
                       progressErrors := 0, queueFilled := false,
                       queue := [], cancel := initW.cancel + 1 } :=
  ⟨⟨((c5_reset_behavior (run 1 [.start [0]] initW)).1 (by decide)).1,
    ((c5_reset_behavior (run 1 [.start [0]] initW)).1 (by decide)).2 1⟩,
   (c5_reset_behavior initW).2 (by decide)⟩

/-- C9: a terminal outcome of a task whose token is still current increments
`_progressDone` by exactly one whether the action's promise resolved or
rejected, and a rejection additionally increments `_progressErrors`. -/
theorem c9_current_outcome_increments (d : Nat) (s : WorkerState)
    (t : InFlight) (failed : Bool) (hmem : t ∈ s.inFlight)
    (hcur : t.token = s.cancel) :
    (completeW d t failed s).progressDone = s.progressDone + 1 ∧
    (completeW d t failed s).progressErrors =
      s.progressErrors + (if failed = true then 1 else 0) := by
  unfold completeW
  rw [if_pos hmem]
  have hcb : cancelledW s t.token = false := by
    simp [cancelledW, hcur]
  rw [hcb]
  obtain ⟨e1, e2, _⟩ := ensureTimeout_counters d _
  refine ⟨?_, ?_⟩
  · rw [e1]
    rfl
  · rw [e2]
    cases failed <;> rfl

/-- Witness for `c9_current_outcome_increments`: the first admitted task
rejects while current; both counters go up by one. -/
theorem c9_current_outcome_witness :
    (completeW 1 ⟨⟨0, 0⟩, 0⟩ true
        (run 1 [.start [0], .advance 1, .fire] initW)).progressDone =
      (run 1 [.start [0], .advance 1, .fire] initW).progressDone + 1 ∧
    (completeW 1 ⟨⟨0, 0⟩, 0⟩ true
        (run 1 [.start [0], .advance 1, .fire] initW)).progressErrors =
      (run 1 [.start [0], .advance 1, .fire] initW).progressErrors +
        (if true = true then 1 else 0) :=
  c9_current_outcome_increments 1 _ ⟨⟨0, 0⟩, 0⟩ true (by decide) (by decide)

theorem startW_of_started {d : Nat} {fill : List Nat} {s : WorkerState}
    (h : s.started = true) : startW d fill s = s := by
  unfold startW
  rw [if_pos h]

theorem ensureTimeout_queueFilled (d : Nat) (s : WorkerState) :
    (ensureTimeout d s).queueFilled = s.queueFilled := by
  rcases ensureTimeout_spec d s with he | he <;> rw [he]

theorem ensureTimeout_fillCalls (d : Nat) (s : WorkerState) :
    (ensureTimeout d s).fillCalls = s.fillCalls := by
  rcases ensureTimeout_spec d s with he | he <;> rw [he]

theorem enqueueW_fillCalls (d p : Nat) (s : WorkerState) :
    (enqueueW d p s).fillCalls = s.fillCalls := by
  unfold enqueueW
  split
  · rw [ensureTimeout_fillCalls]
    rfl
  · rfl

theorem enqueueAll_fillCalls (d : Nat) (ps : List Nat) (s : WorkerState) :
    (enqueueAll d ps s).fillCalls = s.fillCalls := by
  induction ps generalizing s with
  | nil => rfl
  | cons p ps ih =>
    rw [show enqueueAll d (p :: ps) s = enqueueAll d ps (enqueueW d p s)
      from rfl, ih, enqueueW_fillCalls]

theorem startW_fillCalls_of_fresh {d : Nat} {fill : List Nat}
    {s : WorkerState} (hns : s.started = false)
    (hnf : s.queueFilled = false) :
    (startW d fill s).fillCalls = s.fillCalls + 1 := by
  unfold startW
  rw [if_neg (by simp [hns])]
  unfold seedQueue
  rw [if_neg (by rw [ensureTimeout_queueFilled]; simp [hnf]),
    enqueueAll_fillCalls]
  show (ensureTimeout d { s with started := true }).fillCalls + 1 =
    s.fillCalls + 1
  rw [ensureTimeout_fillCalls]

/-- C7: `start` is idempotent: starting twice in a row (no intervening
reset) leaves the state of the second call unchanged and invokes the
`fillQueue` collaborator exactly once. -/
theorem c7_start_idempotent (d : Nat) (fill : List Nat) (s : WorkerState)
    (hns : s.started = false) (hnf : s.queueFilled = false) :
    stepFn d (.start fill) (stepFn d (.start fill) s) =
      stepFn d (.start fill) s ∧
    (stepFn d (.start fill) s).fillCalls = s.fillCalls + 1 ∧
    (stepFn d (.start fill) (stepFn d (.start fill) s)).fillCalls =
      s.fillCalls + 1 := by
  have h1 : (startW d fill s).started = true := startW_started d fill s
  have hfc : (startW d fill s).fillCalls = s.fillCalls + 1 :=
    startW_fillCalls_of_fresh hns hnf
  refine ⟨?_, hfc, ?_⟩
  · show startW d fill (startW d fill s) = startW d fill s
    exact startW_of_started h1
  · show (startW d fill (startW d fill s)).fillCalls = s.fillCalls + 1
    rw [startW_of_started h1]
    exact hfc

/-- Witness for `c7_start_idempotent` on the fresh worker. -/
theorem c7_start_idempotent_witness :
    stepFn 1 (.start [5]) (stepFn 1 (.start [5]) initW) =
      stepFn 1 (.start [5]) initW ∧
    (stepFn 1 (.start [5]) initW).fillCalls = initW.fillCalls + 1 ∧
    (stepFn 1 (.start [5]) (stepFn 1 (.start [5]) initW)).fillCalls =
      initW.fillCalls + 1 :=
  c7_start_idempotent 1 [5] initW (by decide) (by decide)

theorem enqueueW_total (d p : Nat) (s : WorkerState) :
    (enqueueW d p s).progressTotal = s.progressTotal + 1 := by
  unfold enqueueW
  split
  · rw [(ensureTimeout_counters d _).2.2]
    rfl
  · rfl

theorem enqueueAll_total (d : Nat) (ps : List Nat) (s : WorkerState) :
    (enqueueAll d ps s).progressTotal = s.progressTotal + ps.length := by
  induction ps generalizing s with
  | nil => rfl
  | cons p ps ih =>
    rw [show enqueueAll d (p :: ps) s = enqueueAll d ps (enqueueW d p s)
      from rfl, ih, enqueueW_total]
    simp only [List.length_cons]
    omega

theorem startW_total (d : Nat) (fill : List Nat) (s : WorkerState) :
    (startW d fill s).progressTotal =
      s.progressTotal +
        (if s.started = true then 0
         else if s.queueFilled = true then 0 else fill.length) := by
  unfold startW
  by_cases hs : s.started = true
  · rw [if_pos hs, if_pos hs]
    rfl
  · rw [if_neg hs, if_neg hs]
    unfold seedQueue
    by_cases hq : s.queueFilled = true
    · rw [if_pos (show (ensureTimeout d { s with started := true
        }).queueFilled = true from by
          rw [ensureTimeout_queueFilled]; exact hq), if_pos hq,
        (ensureTimeout_counters d _).2.2]
      rfl
    · rw [if_neg (show ¬ (ensureTimeout d { s with started := true
        }).queueFilled = true from by
          rw [ensureTimeout_queueFilled]; simp [Bool.not_eq_true] at hq ⊢
          exact hq), if_neg hq, enqueueAll_total]
      show (ensureTimeout d { s with started := true }).progressTotal +
        fill.length = s.progressTotal + fill.length
      rw [(ensureTimeout_counters d _).2.2]

theorem stepFn_total (d : Nat) (e : Event) (s : WorkerState)
    (h : e ≠ .reset) :
    (stepFn d e s).progressTotal =
      s.progressTotal + eventEnqueues s e := by
  cases e with
  | enqueue p => exact enqueueW_total d p s
  | start fill => exact startW_total d fill s
  | stop =>
    show (stopW s).progressTotal = s.progressTotal + 0
    unfold stopW discardTimeout
    split <;> rfl
  | reset => exact absurd rfl h
  | fire =>
    show (fireW s).progressTotal = s.progressTotal + 0
    cases hto : s.timeout with
    | none =>
      rw [fireW_of_none hto]
      rfl
    | some ft =>
      by_cases hle : ft ≤ s.now
      · cases hq : popMin s.queue with
        | none =>
          rw [fireW_of_empty hto hle hq]
          rfl
        | some p =>
          obtain ⟨it, rest⟩ := p
          rw [fireW_of_pop hto hle hq]
          rfl
      · rw [fireW_of_notyet hto hle]
        rfl
  | complete t failed =>
    show (completeW d t failed s).progressTotal = s.progressTotal + 0
    unfold completeW
    split
    · rw [(ensureTimeout_counters d _).2.2]
      rfl
    · rfl
  | advance dt => rfl

theorem run_total (d : Nat) :
    ∀ (evs : List Event) (s : WorkerState), Event.reset ∉ evs →
      (run d evs s).progressTotal =
        s.progressTotal + enqueueCount d s evs := by
  intro evs
  induction evs with
  | nil => intro s _; rfl
  | cons e evs ih =>
    intro s h
    have he : e ≠ Event.reset := fun hh => h (by
      rw [hh]; exact List.mem_cons_self _ _)
    have h2 : Event.reset ∉ evs := fun hh => h (List.mem_cons_of_mem e hh)
    show (run d evs (stepFn d e s)).progressTotal =
      s.progressTotal + (eventEnqueues s e + enqueueCount d (stepFn d e s) evs)
    rw [ih _ h2, stepFn_total d e s he]
    omega

/-- C6: starting from any state produced by a successful `resetProgress`,
after any event sequence containing no further reset, `_progressTotal`
equals exactly the number of `enqueue` calls performed in that sequence
(external `enqueue`s plus those issued by a seeding `fillQueue`). -/
theorem c6_dispatched_counts_enqueues (d : Nat) (evs : List Event)
    (s s1 : WorkerState) (hreset : resetProgress s = .ok s1)
    (hnone : Event.reset ∉ evs) :
    (run d evs s1).progressTotal = enqueueCount d s1 evs := by
  have h0 : s1.progressTotal = 0 := by
    unfold resetProgress at hreset
    split at hreset
    · exact Except.noConfusion hreset
    · injection hreset with hh
      subst hh
      rfl
  rw [run_total d evs s1 hnone, h0]
  exact Nat.zero_add _

/-- Witness for `c6_dispatched_counts_enqueues`: reset the fresh worker,
then start (seeding two tasks) and enqueue one more: the dispatched counter
is the number of enqueue calls, three. -/
theorem c6_dispatched_counts_enqueues_witness :
    (run 1 [.start [0, 0], .enqueue 5]
        { initW with progressDone := 0, progressTotal := 0,
                     progressErrors := 0, queueFilled := false,
                     queue := [], cancel := initW.cancel + 1 }).progressTotal =
      enqueueCount 1
        { initW with progressDone := 0, progressTotal := 0,
                     progressErrors := 0, queueFilled := false,
                     queue := [], cancel := initW.cancel + 1 }
        [.start [0, 0], .enqueue 5] :=
  c6_dispatched_counts_enqueues 1 [.start [0, 0], .enqueue 5] initW _
    rfl (by decide)

theorem runPaged_cons_live (rest : List (Bool × PageFetch)) :
    runPaged ((false, .fetched true true) :: rest) =
      ⟨(runPaged rest).outcome, (runPaged rest).handlerCalls + 1,
        (runPaged rest).contEnqueues + 1⟩ := rfl

/-- C8: along a pagination chain of current-token pages, a response that
reports a further page but yields no retrievable next-page handle rejects
the overall promise (with the protocol-violation error, having run the
handler once per fetched page), and a failed page fetch rejects the overall
promise immediately; in both cases no continuation past the offending page
is enqueued (the continuation count equals the number of good pages), and
the outcome is independent of whatever the source would have served next. -/
theorem c8_pagination_rejects :
    ∀ (pre post : List (Bool × PageFetch)),
      (∀ x ∈ pre, x = (false, .fetched true true)) →
      runPaged (pre ++ (false, .fetched true false) :: post) =
        ⟨.rejectedLiar, pre.length + 1, pre.length⟩ ∧
      runPaged (pre ++ (false, .failed) :: post) =
        ⟨.rejectedFetch, pre.length, pre.length⟩ := by
  intro pre
  induction pre with
  | nil => intro post _; exact ⟨rfl, rfl⟩
  | cons x xs ih =>
    intro post h
    have hx : x = (false, .fetched true true) :=
      h x (List.mem_cons_self _ _)
    have hxs : ∀ y ∈ xs, y = (false, .fetched true true) :=
      fun y hy => h y (List.mem_cons_of_mem _ hy)
    obtain ⟨ih1, ih2⟩ := ih post hxs
    subst hx
    constructor
    · rw [List.cons_append, runPaged_cons_live, ih1]
      rfl
    · rw [List.cons_append, runPaged_cons_live, ih2]
      rfl

/-- Witness for `c8_pagination_rejects` on a one-good-page prefix. -/
theorem c8_pagination_rejects_witness :
    runPaged ([(false, .fetched true true)] ++
        (false, .fetched true false) :: [(false, .fetched false true)]) =
      ⟨.rejectedLiar, [(false, PageFetch.fetched true true)].length + 1,
        [(false, PageFetch.fetched true true)].length⟩ ∧
    runPaged ([(false, .fetched true true)] ++
        (false, .failed) :: [(false, .fetched false true)]) =
      ⟨.rejectedFetch, [(false, PageFetch.fetched true true)].length,
        [(false, PageFetch.fetched true true)].length⟩ :=
  c8_pagination_rejects [(false, .fetched true true)]
    [(false, .fetched false true)] (by decide)

/-- C10: when a single (non-paged) request's response arrives after the
epoch has advanced past the task's captured token, the response callback
settles the promise returned by `enqueueRequest` by rejecting it with
`'cancelled'`, and the handler is not invoked. -/
theorem c10_stale_single_request_rejected {D R : Type} (s : WorkerState)
    (token : Nat) (handler : D → R) (response : D)
    (h : token < s.cancel) :
    enqueueRequestOnResponse s token handler response =
      (Settled.rejectedCancelled, false) := by
  unfold enqueueRequestOnResponse
  rw [if_pos (show cancelledW s token = true from by
    simp [cancelledW]
    omega)]

/-- Witness for `c10_stale_single_request_rejected` in the reachable state
right after a reset superseded the in-flight task's token. -/
theorem c10_stale_single_request_witness :
    enqueueRequestOnResponse
        (run 1 [.start [0], .advance 1, .fire, .stop, .reset] initW) 0
        (fun n : Nat => n + 1) 7 =
      (Settled.rejectedCancelled, false) :=
  c10_stale_single_request_rejected _ 0 _ 7 (by decide)

end RegionWorker
